import Mathlib

/-!
# Repository versioning engine: shallow embedding

This file embeds the repository-versioning core of
`pulpcore/app/models/repository.py` (the `Repository`, `RepositoryContent`
and `RepositoryVersion` Django models) as executable Lean definitions over
a single repository's slice of the database, and proves the specified
properties about them.

Modelling conventions:
* Content units are identified by their primary key, a `Nat`.
* `RepositoryContent` rows are the membership ledger; the `repository`
  foreign key is implicit (all definitions are scoped to one repository,
  mirroring the `repository=self.repository` filters in the source).
* Version rows carry their `number` and `complete` flag; foreign keys to
  versions are represented by the version `number` (unique per repository
  by the `unique_together = (repository, number)` constraint).
* Django querysets over the ledger become `List` filters/maps; `update`
  becomes `List.map`, `delete` becomes `List.filter`, `bulk_create`
  becomes list append, preserving the source's evaluation order.
-/

set_option autoImplicit false

namespace Pulpcore

/-- One `RepositoryContent` row: the membership record for a content unit,
with the number of the `RepositoryVersion` that added it and, optionally,
the number of the version that removed it (`version_removed = null` while
the unit is still active). -/
structure RepositoryContent where
  content_id : Nat
  version_added : Nat
  version_removed : Option Nat
deriving DecidableEq, Repr

/-- One `RepositoryVersion` row: its `number` and `complete` flag. -/
structure VersionRow where
  number : Nat
  complete : Bool
deriving DecidableEq, Repr

/-- The per-repository state: the `last_version` counter of the
`Repository` row, its `RepositoryVersion` rows, and its
`RepositoryContent` ledger rows. -/
structure RepoState where
  last_version : Nat
  versions : List VersionRow
  relations : List RepositoryContent
deriving DecidableEq, Repr

/-- The row-level test of `RepositoryVersion.content`:
`filter(version_added__number__lte=n).exclude(version_removed__number__lte=n)`.
A row with `version_removed = null` is kept by the `exclude`. -/
def coversAt (r : RepositoryContent) (n : Nat) : Bool :=
  decide (r.version_added ≤ n) &&
    !(match r.version_removed with
      | some m => decide (m ≤ n)
      | none => false)

/-- `RepositoryVersion.content` as a membership test: content unit `c` is
in the content set of version number `n`. -/
def presentAt (rels : List RepositoryContent) (n : Nat) (c : Nat) : Bool :=
  rels.any (fun r => r.content_id == c && coversAt r n)

/-- `RepositoryVersion.content` as the list of content ids of the
qualifying ledger rows (used where the source iterates the queryset). -/
def contentList (rels : List RepositoryContent) (n : Nat) : List Nat :=
  (rels.filter (fun r => coversAt r n)).map (fun r => r.content_id)

/-- `RepositoryVersion.added()`: content ids having a ledger row with
`version_added = self`. -/
def addedAt (rels : List RepositoryContent) (n : Nat) : List Nat :=
  (rels.filter (fun r => r.version_added == n)).map (fun r => r.content_id)

/-- `RepositoryVersion.removed()`: content ids having a ledger row with
`version_removed = self`. -/
def removedAt (rels : List RepositoryContent) (n : Nat) : List Nat :=
  (rels.filter (fun r => r.version_removed == some n)).map (fun r => r.content_id)

/-- The body of `RepositoryVersion.add_content` after the `complete`
guard: one `RepositoryContent` row is bulk-created for each incoming
content id not already in `self.content`. -/
def addContentCore (s : RepoState) (v : VersionRow) (ids : List Nat) : RepoState :=
  { s with relations := (s.relations ++
      (ids.filter (fun c => !(presentAt s.relations v.number c))).map
        (fun c => { content_id := c, version_added := v.number, version_removed := none })) }

/-- The body of `RepositoryVersion.remove_content` after the `complete`
guard: every ledger row with `version_removed = null` whose content is in
the incoming set gets `version_removed = self`. -/
def removeContentCore (s : RepoState) (v : VersionRow) (ids : List Nat) : RepoState :=
  { s with relations := (s.relations.map (fun r =>
      if r.version_removed == none && ids.contains r.content_id
      then { r with version_removed := some v.number } else r)) }

/-- `RepositoryVersion.add_content`: raises `ResourceImmutableError`
(modelled as `Except.error ()`) when the version is complete, otherwise
performs `addContentCore`. -/
def add_content (s : RepoState) (v : VersionRow) (ids : List Nat) :
    Except Unit RepoState :=
  if v.complete then .error () else .ok (addContentCore s v ids)

/-- `RepositoryVersion.remove_content`: raises `ResourceImmutableError`
(modelled as `Except.error ()`) when the version is complete, otherwise
performs `removeContentCore`. -/
def remove_content (s : RepoState) (v : VersionRow) (ids : List Nat) :
    Except Unit RepoState :=
  if v.complete then .error () else .ok (removeContentCore s v ids)

/-- `Repository.new_version`: create a row numbered `last_version + 1`,
advance the counter, and when a base version is given (represented by the
content-id set of `base_version.content`, the only thing the source reads
from it), diff the ledger: first
`remove_content(version.content.exclude(pk__in=base_version.content))`,
then `add_content(base_version.content.exclude(pk__in=version.content))`
(re-evaluated after the removal). The open version is incomplete, so both
calls take the non-raising branch. -/
def newVersion (s : RepoState) (baseContent : Option (List Nat)) :
    RepoState × VersionRow :=
  let v : VersionRow := { number := s.last_version + 1, complete := false }
  let s1 : RepoState := { s with last_version := v.number, versions := s.versions ++ [v] }
  match baseContent with
  | none => (s1, v)
  | some base =>
      let toRemove := (contentList s1.relations v.number).filter
        (fun c => !(base.contains c))
      let s2 := removeContentCore s1 v toRemove
      let s3 := addContentCore s2 v
        (base.filter (fun c => !(presentAt s2.relations v.number c)))
      (s3, v)

/-- Minimum of a list of naturals, `none` on the empty list. -/
def minNat? : List Nat → Option Nat
  | [] => none
  | n :: ns =>
      match minNat? ns with
      | none => some n
      | some m => some (if n ≤ m then n else m)

/-- `RepositoryVersion.next()`: the number of the next complete version of
the same repository by ascending number (`exclude(complete=False)
.filter(number__gt=self.number).order_by(number)[0]`); `none` models the
`DoesNotExist` branch. -/
def nextComplete (s : RepoState) (vnum : Nat) : Option Nat :=
  minNat? ((s.versions.filter
      (fun w => w.complete && decide (vnum < w.number))).map (fun w => w.number))

/-- The `version_removed`-clearing update used by `delete`:
`filter(version_removed=self).update(version_removed=None)` on one row. -/
def clearRemoved (vn : Nat) (r : RepositoryContent) : RepositoryContent :=
  if r.version_removed == some vn then { r with version_removed := none } else r

/-- The ledger clean-up shared by deleting an incomplete version and
deleting the latest complete version:
`filter(version_added=self).delete()` then
`filter(version_removed=self).update(version_removed=None)`. -/
def dropAddedClearRemoved (rels : List RepositoryContent) (vn : Nat) :
    List RepositoryContent :=
  (rels.filter (fun r => !(r.version_added == vn))).map (clearRemoved vn)

/-- Step 1 of `RepositoryVersion._squash`: delete any relationships added
in the version being deleted (`vn`) and removed in the next one (`nn`). -/
def squashRels1 (rels : List RepositoryContent) (vn nn : Nat) :
    List RepositoryContent :=
  rels.filter (fun r => !(r.version_added == vn && r.version_removed == some nn))

/-- The `content_added` queryset of `_squash`: content ids with a record
added in `next_version`, evaluated after step 1's deletion. -/
def squashContentAdded (rels : List RepositoryContent) (vn nn : Nat) : List Nat :=
  ((squashRels1 rels vn nn).filter (fun r => r.version_added == nn)).map
    (fun r => r.content_id)

/-- The `content_removed_and_readded` list of `_squash`, forced with
`list()` in the source before the updates run. -/
def squashCrr (rels : List RepositoryContent) (vn nn : Nat) : List Nat :=
  ((squashRels1 rels vn nn).filter (fun r =>
      r.version_removed == some vn &&
        (squashContentAdded rels vn nn).contains r.content_id)).map
    (fun r => r.content_id)

/-- `RepositoryVersion._squash(repo_relations, next_version)`, step for
step. `vn` is the number of the version being deleted, `nn` the number of
the next complete version: step 1 deletes records spanning exactly
`[vn, nn)`; for removed-and-readded content the removal is cleared and the
re-addition record deleted; remaining boundaries naming `vn` are moved to
`nn`. -/
def squash (rels : List RepositoryContent) (vn nn : Nat) : List RepositoryContent :=
  let rels2 := (squashRels1 rels vn nn).map (fun r =>
    if r.version_removed == some vn && (squashCrr rels vn nn).contains r.content_id
    then { r with version_removed := none } else r)
  let rels3 := rels2.filter
    (fun r => !(r.version_added == nn && (squashCrr rels vn nn).contains r.content_id))
  let rels4 := rels3.map (fun r =>
    if r.version_added == vn then { r with version_added := nn } else r)
  rels4.map (fun r =>
    if r.version_removed == some vn then { r with version_removed := some nn } else r)

/-- `RepositoryVersion.delete()`. A complete version with a successor is
squashed into it; a complete version without one (the latest) has its
additions deleted and its removals cleared; an incomplete version is
cleaned up the same way and additionally rolls `repository.last_version`
back to `number - 1`. In every branch the version row itself is removed. -/
def deleteVersion (s : RepoState) (v : VersionRow) : RepoState :=
  if v.complete then
    match nextComplete s v.number with
    | some nn =>
        { s with relations := squash s.relations v.number nn,
                 versions := s.versions.erase v }
    | none =>
        { s with relations := dropAddedClearRemoved s.relations v.number,
                 versions := s.versions.erase v }
  else
    { s with relations := dropAddedClearRemoved s.relations v.number,
             versions := s.versions.erase v,
             last_version := v.number - 1 }

/-- `Repository.latest_version()`: `self.versions.get(number=self.last_version)`
with `DoesNotExist` suppressed to `None`. Version numbers are unique per
repository, so `find?` is the faithful reading of `get`. -/
def latestVersion (s : RepoState) : Option VersionRow :=
  s.versions.find? (fun w => w.number == s.last_version)

/-- Setting `complete = True` and saving, as done on the successful branch
of `RepositoryVersion.__exit__` (rows are keyed by their unique number). -/
def markComplete (s : RepoState) (v : VersionRow) : RepoState :=
  { s with versions := (s.versions.map (fun w =>
      if w.number == v.number then { w with complete := true } else w)) }

/-- Outcome of the `with`-scope around an open version: the version was
completed, discarded as a no-op, or aborted with the original exception
re-raised to the caller. Each constructor carries the repository state
left behind. -/
inductive ExitResult where
  | completed (s : RepoState)
  | discarded (s : RepoState)
  | aborted (s : RepoState)
deriving DecidableEq, Repr

/-- The state carried by an `ExitResult`. -/
def ExitResult.state : ExitResult → RepoState
  | .completed s => s
  | .discarded s => s
  | .aborted s => s

/-- `RepositoryVersion.__exit__(exc_type, exc_value, traceback)`.
`excDuringBody` models `exc_value` being set by an exception in the
mutation phase; the `finalize_new_version` hook is a function returning
the state after its own mutations plus a flag telling whether it raised.
On the no-exception path the hook runs, then
`no_change = not self.added() and not self.removed()` decides between
discarding (`self.delete()`) and completing (`complete = True; save()`). -/
def exitScope (s : RepoState) (v : VersionRow) (excDuringBody : Bool)
    (hook : RepoState → RepoState × Bool) : ExitResult :=
  if excDuringBody then .aborted (deleteVersion s v)
  else
    let hs := hook s
    if hs.2 then .aborted (deleteVersion hs.1 v)
    else if (addedAt hs.1.relations v.number).isEmpty &&
            (removedAt hs.1.relations v.number).isEmpty
    then .discarded (deleteVersion hs.1 v)
    else .completed (markComplete hs.1 v)

/-- The base `Repository.finalize_new_version` hook: `pass`. -/
def baseHook : RepoState → RepoState × Bool := fun s => (s, false)

/-- A mutation-phase operation against the open version. -/
inductive MutOp where
  | add (ids : List Nat)
  | remove (ids : List Nat)
deriving DecidableEq, Repr

/-- Run a sequence of `add_content` / `remove_content` calls against the
open (incomplete) version, taking the guards' non-raising branches. -/
def mutate (s : RepoState) (v : VersionRow) : List MutOp → RepoState
  | [] => s
  | .add ids :: ops => mutate (addContentCore s v ids) v ops
  | .remove ids :: ops => mutate (removeContentCore s v ids) v ops

/-- `Repository.save()` on a fresh repository calls
`create_initial_version`: version 0, complete, with an empty ledger. -/
def initialRepo : RepoState :=
  { last_version := 0,
    versions := [{ number := 0, complete := true }],
    relations := [] }

/-- Well-formedness of the ledger rows against the counter: every boundary
number in a membership record is at most `last_version` (boundaries only
ever name versions that have been created). -/
def boundedRelations (s : RepoState) : Bool :=
  s.relations.all (fun r =>
    decide (r.version_added ≤ s.last_version) &&
      (match r.version_removed with
       | some m => decide (m ≤ s.last_version)
       | none => true))

/-- Well-formedness of the version rows against the counter: every version
number is at most `last_version`. -/
def boundedVersions (s : RepoState) : Bool :=
  s.versions.all (fun w => decide (w.number ≤ s.last_version))

/-- Ledger order invariant: no record is removed at a version earlier than
the one that added it. -/
def removedNotBelowAdded (rels : List RepositoryContent) : Bool :=
  rels.all (fun r =>
    match r.version_removed with
    | some m => decide (r.version_added ≤ m)
    | none => true)

/-- Absence of the squash hazard for deleting version `vn` into `nn`: no
content unit removed at `vn` has a re-addition record at `nn` that carries
its own later removal boundary. -/
def squashSafe (rels : List RepositoryContent) (vn nn : Nat) : Bool :=
  rels.all (fun r =>
    !(r.version_removed == some vn) ||
      rels.all (fun r2 =>
        !(r2.version_added == nn && r2.content_id == r.content_id) ||
          r2.version_removed == none))

/-! ## Basic characterizations of the ledger queries -/

theorem coversAt_iff (r : RepositoryContent) (n : Nat) :
    coversAt r n = true ↔
      r.version_added ≤ n ∧
        (r.version_removed = none ∨ ∃ m, r.version_removed = some m ∧ n < m) := by
  unfold coversAt
  cases h : r.version_removed with
  | none => simp
  | some m =>
      simp only [Bool.and_eq_true, decide_eq_true_eq, Bool.not_eq_true',
        decide_eq_false_iff_not, Option.some.injEq, reduceCtorEq, false_or]
      constructor
      · rintro ⟨h1, h2⟩
        exact ⟨h1, m, rfl, by omega⟩
      · rintro ⟨h1, m', hm', h2⟩
        exact ⟨h1, by omega⟩

theorem presentAt_iff (rels : List RepositoryContent) (n c : Nat) :
    presentAt rels n c = true ↔
      ∃ r ∈ rels, r.content_id = c ∧ coversAt r n = true := by
  simp [presentAt, List.any_eq_true]

/-- C3: a content unit is in `content_at(N)` iff the ledger holds a
membership record for it with `version_added.number ≤ N` and with
`version_removed` either null or having a number greater than `N`. -/
theorem C3_present_iff_record (rels : List RepositoryContent) (n c : Nat) :
    presentAt rels n c = true ↔
      ∃ r ∈ rels, r.content_id = c ∧ r.version_added ≤ n ∧
        (r.version_removed = none ∨ ∃ m, r.version_removed = some m ∧ n < m) := by
  rw [presentAt_iff]
  constructor
  · rintro ⟨r, hr, hc, h⟩
    exact ⟨r, hr, hc, (coversAt_iff r n).mp h⟩
  · rintro ⟨r, hr, hc, h⟩
    exact ⟨r, hr, hc, (coversAt_iff r n).mpr h⟩

/-- C7: `add_content` and `remove_content` raise `ResourceImmutableError`
exactly when the target version is complete; on a complete version the
ledger is left untouched (the error is raised before any write), and on an
incomplete version they never raise, performing their respective ledger
updates. -/
theorem C7_immutable_iff (s : RepoState) (v : VersionRow) (ids : List Nat) :
    (add_content s v ids = .error () ↔ v.complete = true) ∧
    (remove_content s v ids = .error () ↔ v.complete = true) ∧
    (v.complete = false →
      add_content s v ids = .ok (addContentCore s v ids) ∧
        remove_content s v ids = .ok (removeContentCore s v ids)) := by
  cases hc : v.complete <;> simp [add_content, remove_content, hc]

/-- C8: `add_content` is idempotent: on an open version, ids that are all
already present at the version create no membership record and leave the
state (ledger and record count included) unchanged; in general every
record after the call is either an old record or a new record with
`version_added = version` for a content id that was not present. -/
theorem C8_add_content_idempotent (s : RepoState) (v : VersionRow) (ids : List Nat)
    (hopen : v.complete = false)
    (hactive : ∀ c ∈ ids, presentAt s.relations v.number c = true) :
    add_content s v ids = .ok s ∧
      ∀ ids2 : List Nat, ∀ r ∈ (addContentCore s v ids2).relations,
        r ∈ s.relations ∨
          (r.version_added = v.number ∧ r.version_removed = none ∧
            presentAt s.relations v.number r.content_id = false) := by
  constructor
  · have hfil : ids.filter (fun c => !(presentAt s.relations v.number c)) = [] := by
      rw [List.filter_eq_nil_iff]
      intro c hc
      simp [hactive c hc]
    simp [add_content, hopen, addContentCore, hfil]
  · intro ids2 r hr
    simp only [addContentCore, List.mem_append, List.mem_map, List.mem_filter] at hr
    rcases hr with hr | ⟨c, ⟨_, hcp⟩, rfl⟩
    · exact Or.inl hr
    · simp only [Bool.not_eq_true'] at hcp
      exact Or.inr ⟨rfl, rfl, hcp⟩

theorem C8_add_content_idempotent_witness :
    add_content { last_version := 1,
                  versions := [{ number := 0, complete := true },
                               { number := 1, complete := false }],
                  relations := [{ content_id := 7, version_added := 1,
                                  version_removed := none }] }
        { number := 1, complete := false } [7]
      = .ok { last_version := 1,
              versions := [{ number := 0, complete := true },
                           { number := 1, complete := false }],
              relations := [{ content_id := 7, version_added := 1,
                              version_removed := none }] } :=
  (C8_add_content_idempotent _ _ _ rfl (by decide)).1

/-- C9: `new_version` assigns number `last_version + 1` and advances the
counter to it; deleting that still-incomplete version rolls the counter
back to its previous value, and the next `new_version` reuses the same
number. -/
theorem C9_reclaimed_numbering (s : RepoState) :
    (newVersion s none).2.number = s.last_version + 1 ∧
    (newVersion s none).1.last_version = s.last_version + 1 ∧
    (deleteVersion (newVersion s none).1 (newVersion s none).2).last_version
        = s.last_version ∧
    (newVersion (deleteVersion (newVersion s none).1 (newVersion s none).2) none).2.number
        = s.last_version + 1 := by
  refine ⟨rfl, rfl, ?_, ?_⟩ <;> simp [newVersion, deleteVersion]

/-- C10: `latest_version` returns the version row whose number equals the
`last_version` counter regardless of its `complete` flag — in particular,
right after `new_version` it returns the still-incomplete open version —
and returns `none` rather than raising when no row with that number
exists. -/
theorem C10_latest_version (s : RepoState) :
    ((∀ w ∈ s.versions, w.number ≠ s.last_version) → latestVersion s = none) ∧
    (∀ w, latestVersion s = some w → w ∈ s.versions ∧ w.number = s.last_version) ∧
    ((∀ w ∈ s.versions, w.number ≤ s.last_version) →
      latestVersion (newVersion s none).1 =
        some { number := s.last_version + 1, complete := false }) := by
  refine ⟨?_, ?_, ?_⟩
  · intro h
    rw [latestVersion, List.find?_eq_none]
    intro w hw
    simp [h w hw]
  · intro w hw
    refine ⟨List.mem_of_find?_eq_some hw, ?_⟩
    have := List.find?_some hw
    simpa using this
  · intro h
    have hnone : (s.versions.find? (fun w => w.number == s.last_version + 1)) = none := by
      rw [List.find?_eq_none]
      intro w hw
      have := h w hw
      simp only [Bool.not_eq_true, beq_eq_false_iff_ne, ne_eq]
      omega
    simp [latestVersion, newVersion, List.find?_append, hnone]

/-! ## Lifecycle: no-op elision (C5) and abort on failure (C6) -/

theorem clearRemoved_of_ne (vn : Nat) (r : RepositoryContent)
    (h : r.version_removed ≠ some vn) : clearRemoved vn r = r := by
  simp [clearRemoved, h]

/-- C5: if after the `finalize_new_version` hook runs the version has no
added and no removed records, the scope discards the version instead of
completing it: its row does not persist, the ledger is untouched (there
were no traces to clean), and `last_version` is rolled back to
`number - 1`. -/
theorem C5_noop_elision (s s1 : RepoState) (v : VersionRow)
    (hook : RepoState → RepoState × Bool)
    (hhook : hook s = (s1, false))
    (hopen : v.complete = false)
    (hadded : addedAt s1.relations v.number = [])
    (hremoved : removedAt s1.relations v.number = [])
    (hv : v ∈ s1.versions)
    (hnum : (s1.versions.map (fun w => w.number)).Nodup) :
    exitScope s v false hook = .discarded (deleteVersion s1 v) ∧
      (deleteVersion s1 v).relations = s1.relations ∧
      (deleteVersion s1 v).last_version = v.number - 1 ∧
      ∀ w ∈ (deleteVersion s1 v).versions, w.number ≠ v.number := by
  have hnoadd : ∀ r ∈ s1.relations, ¬(r.version_added = v.number) := by
    intro r hr hcontra
    have : r.content_id ∈ addedAt s1.relations v.number := by
      simp only [addedAt, List.mem_map, List.mem_filter]
      exact ⟨r, ⟨hr, by simp [hcontra]⟩, rfl⟩
    rw [hadded] at this
    exact absurd this (List.not_mem_nil _)
  have hnorem : ∀ r ∈ s1.relations, ¬(r.version_removed = some v.number) := by
    intro r hr hcontra
    have : r.content_id ∈ removedAt s1.relations v.number := by
      simp only [removedAt, List.mem_map, List.mem_filter]
      exact ⟨r, ⟨hr, by simp [hcontra]⟩, rfl⟩
    rw [hremoved] at this
    exact absurd this (List.not_mem_nil _)
  have hrels : dropAddedClearRemoved s1.relations v.number = s1.relations := by
    unfold dropAddedClearRemoved
    have hfil : s1.relations.filter (fun r => !(r.version_added == v.number))
        = s1.relations := by
      rw [List.filter_eq_self]
      intro r hr
      simp [hnoadd r hr]
    rw [hfil]
    have : ∀ r ∈ s1.relations, clearRemoved v.number r = r := fun r hr =>
      clearRemoved_of_ne _ _ (hnorem r hr)
    calc s1.relations.map (clearRemoved v.number)
        = s1.relations.map id := List.map_congr_left this
      _ = s1.relations := List.map_id _
  refine ⟨?_, ?_, ?_, ?_⟩
  · simp [exitScope, hhook, hadded, hremoved]
  · simp [deleteVersion, hopen, hrels]
  · simp [deleteVersion, hopen]
  · intro w hw
    simp only [deleteVersion, hopen, Bool.false_eq_true, if_false] at hw
    have hmem : w ∈ s1.versions.erase v := hw
    have hnd : s1.versions.Nodup := List.Nodup.of_map _ hnum
    rw [List.Nodup.mem_erase_iff hnd] at hmem
    intro heq
    exact hmem.1 (List.inj_on_of_nodup_map hnum hmem.2 hv heq)

theorem dropAddedClearRemoved_append_new (rels news : List RepositoryContent)
    (vn : Nat) (h : ∀ r ∈ news, r.version_added = vn) :
    dropAddedClearRemoved (rels ++ news) vn = dropAddedClearRemoved rels vn := by
  unfold dropAddedClearRemoved
  rw [List.filter_append]
  have hnil : news.filter (fun r => !(r.version_added == vn)) = [] := by
    rw [List.filter_eq_nil_iff]
    intro r hr
    simp [h r hr]
  rw [hnil, List.append_nil]

theorem dropAddedClearRemoved_stamp (rels : List RepositoryContent)
    (vn : Nat) (ids : List Nat) :
    dropAddedClearRemoved (rels.map (fun r =>
        if r.version_removed == none && ids.contains r.content_id
        then { r with version_removed := some vn } else r)) vn
      = dropAddedClearRemoved rels vn := by
  unfold dropAddedClearRemoved
  rw [List.filter_map, List.map_map]
  have hadded : ∀ r : RepositoryContent,
      (if r.version_removed == none && ids.contains r.content_id
       then { r with version_removed := some vn } else r).version_added
        = r.version_added := by
    intro r
    split <;> rfl
  have hfil : rels.filter ((fun r => !(r.version_added == vn)) ∘ (fun r =>
        if r.version_removed == none && ids.contains r.content_id
        then { r with version_removed := some vn } else r))
      = rels.filter (fun r => !(r.version_added == vn)) := by
    apply List.filter_congr
    intro r _
    simp only [Function.comp_apply, hadded r]
  rw [hfil]
  apply List.map_congr_left
  intro r _
  obtain ⟨rc, ra, rr⟩ := r
  cases rr with
  | some m => simp [clearRemoved]
  | none =>
      by_cases hm : rc ∈ ids
      · simp [clearRemoved, hm]
      · simp [clearRemoved, hm]

theorem mutate_append (s : RepoState) (v : VersionRow) (a b : List MutOp) :
    mutate (mutate s v a) v b = mutate s v (a ++ b) := by
  induction a generalizing s with
  | nil => rfl
  | cons op ops ih =>
      cases op with
      | add ids => simpa [mutate] using ih (addContentCore s v ids)
      | remove ids => simpa [mutate] using ih (removeContentCore s v ids)

theorem mutate_frame (s : RepoState) (v : VersionRow) (ops : List MutOp) :
    (mutate s v ops).last_version = s.last_version ∧
      (mutate s v ops).versions = s.versions := by
  induction ops generalizing s with
  | nil => exact ⟨rfl, rfl⟩
  | cons op ops ih =>
      cases op with
      | add ids => simpa [mutate, addContentCore] using ih (addContentCore s v ids)
      | remove ids => simpa [mutate, removeContentCore] using ih (removeContentCore s v ids)

theorem mutate_dacr (s : RepoState) (v : VersionRow) (ops : List MutOp) :
    dropAddedClearRemoved (mutate s v ops).relations v.number
      = dropAddedClearRemoved s.relations v.number := by
  induction ops generalizing s with
  | nil => rfl
  | cons op ops ih =>
      cases op with
      | add ids =>
          rw [mutate, ih]
          simp only [addContentCore]
          apply dropAddedClearRemoved_append_new
          intro r hr
          simp only [List.mem_map, List.mem_filter] at hr
          obtain ⟨c, _, rfl⟩ := hr
          rfl
      | remove ids =>
          rw [mutate, ih]
          simp only [removeContentCore]
          exact dropAddedClearRemoved_stamp _ _ _

theorem boundedRelations_spec (s : RepoState) (h : boundedRelations s = true) :
    ∀ r ∈ s.relations, r.version_added ≤ s.last_version ∧
      ∀ m, r.version_removed = some m → m ≤ s.last_version := by
  intro r hr
  have := (List.all_eq_true.mp h) r hr
  cases hrm : r.version_removed with
  | none => simp_all
  | some m =>
      rw [hrm] at this
      simp only [Bool.and_eq_true, decide_eq_true_eq] at this
      exact ⟨this.1, by intro m' hm'; injection hm' with hm'; omega⟩

theorem dropAddedClearRemoved_of_bounded (s : RepoState)
    (h : boundedRelations s = true) :
    dropAddedClearRemoved s.relations (s.last_version + 1) = s.relations := by
  unfold dropAddedClearRemoved
  have hspec := boundedRelations_spec s h
  have hfil : s.relations.filter
      (fun r => !(r.version_added == s.last_version + 1)) = s.relations := by
    rw [List.filter_eq_self]
    intro r hr
    have := (hspec r hr).1
    simp only [Bool.not_eq_eq_eq_not, Bool.not_true, beq_eq_false_iff_ne, ne_eq]
    omega
  rw [hfil]
  have : ∀ r ∈ s.relations, clearRemoved (s.last_version + 1) r = r := by
    intro r hr
    apply clearRemoved_of_ne
    intro hcontra
    have := (hspec r hr).2 _ hcontra
    omega
  calc s.relations.map (clearRemoved (s.last_version + 1))
      = s.relations.map id := List.map_congr_left this
    _ = s.relations := List.map_id _

theorem abort_restores (s0 : RepoState) (ops : List MutOp)
    (hbr : boundedRelations s0 = true) (hbv : boundedVersions s0 = true) :
    deleteVersion (mutate (newVersion s0 none).1 (newVersion s0 none).2 ops)
      (newVersion s0 none).2 = s0 := by
  set v : VersionRow := { number := s0.last_version + 1, complete := false } with hv
  have hframe := mutate_frame (newVersion s0 none).1 v ops
  have hvers : (mutate (newVersion s0 none).1 v ops).versions
      = s0.versions ++ [v] := by
    rw [hframe.2]; rfl
  have hrels : dropAddedClearRemoved
      (mutate (newVersion s0 none).1 v ops).relations v.number = s0.relations := by
    rw [mutate_dacr]
    show dropAddedClearRemoved s0.relations (s0.last_version + 1) = s0.relations
    exact dropAddedClearRemoved_of_bounded s0 hbr
  have hvnotmem : v ∉ s0.versions := by
    intro hmem
    have := (List.all_eq_true.mp hbv) v hmem
    simp at this
  have herase : (s0.versions ++ [v]).erase v = s0.versions := by
    rw [List.erase_append_right _ hvnotmem, List.erase_cons_head, List.append_nil]
  show deleteVersion (mutate (newVersion s0 none).1 v ops) v = s0
  unfold deleteVersion
  simp only [hrels, hvers, herase]
  obtain ⟨l0, v0, r0⟩ := s0
  simp_all

/-- C6: an exception during the mutation phase, or one raised inside the
`finalize_new_version` hook (even after the hook performed further
mutations of its own), makes the version-building scope abort before the
exception propagates: additions of the open version are deleted, removals
it stamped are cleared, the counter is rolled back, and the resulting
repository state is exactly the state before the version was opened,
while the original exception is re-raised (`ExitResult.aborted`). -/
theorem C6_abort_restores (s0 : RepoState) (bodyOps hookOps : List MutOp)
    (hbr : boundedRelations s0 = true) (hbv : boundedVersions s0 = true) :
    exitScope (mutate (newVersion s0 none).1 (newVersion s0 none).2 bodyOps)
        (newVersion s0 none).2 true baseHook = .aborted s0 ∧
      exitScope (mutate (newVersion s0 none).1 (newVersion s0 none).2 bodyOps)
        (newVersion s0 none).2 false
        (fun s => (mutate s (newVersion s0 none).2 hookOps, true)) = .aborted s0 := by
  constructor
  · show ExitResult.aborted _ = _
    rw [abort_restores s0 bodyOps hbr hbv]
  · show ExitResult.aborted (deleteVersion
      (mutate (mutate (newVersion s0 none).1 (newVersion s0 none).2 bodyOps)
        (newVersion s0 none).2 hookOps) (newVersion s0 none).2) = _
    rw [mutate_append, abort_restores s0 (bodyOps ++ hookOps) hbr hbv]

/-! ## The consecutive-version law (C2) -/

theorem mem_addedAt (rels : List RepositoryContent) (n c : Nat) :
    c ∈ addedAt rels n ↔ ∃ r ∈ rels, r.version_added = n ∧ r.content_id = c := by
  simp only [addedAt, List.mem_map, List.mem_filter, beq_iff_eq]
  constructor
  · rintro ⟨r, ⟨hr, ha⟩, rfl⟩
    exact ⟨r, hr, ha, rfl⟩
  · rintro ⟨r, hr, ha, rfl⟩
    exact ⟨r, ⟨hr, ha⟩, rfl⟩

theorem mem_removedAt (rels : List RepositoryContent) (n c : Nat) :
    c ∈ removedAt rels n ↔ ∃ r ∈ rels, r.version_removed = some n ∧ r.content_id = c := by
  simp only [removedAt, List.mem_map, List.mem_filter, beq_iff_eq]
  constructor
  · rintro ⟨r, ⟨hr, ha⟩, rfl⟩
    exact ⟨r, hr, ha, rfl⟩
  · rintro ⟨r, hr, ha, rfl⟩
    exact ⟨r, ⟨hr, ha⟩, rfl⟩

theorem removedNotBelowAdded_spec (rels : List RepositoryContent)
    (h : removedNotBelowAdded rels = true) :
    ∀ r ∈ rels, ∀ m, r.version_removed = some m → r.version_added ≤ m := by
  intro r hr m hm
  have := (List.all_eq_true.mp h) r hr
  rw [hm] at this
  simpa using this

/-- The repository state reached by: version 1 adds content 7 and
completes; version 2 removes 7 and then re-adds it, and completes. -/
def c2State : RepoState :=
  let p1 := newVersion initialRepo none
  let s1 := (exitScope (addContentCore p1.1 p1.2 [7]) p1.2 false baseHook).state
  let p2 := newVersion s1 none
  (exitScope (addContentCore (removeContentCore p2.1 p2.2 [7]) p2.2 [7])
    p2.2 false baseHook).state

/-- C2 counterexample: in a state reached through the repository
operations themselves (content 7 added at version 1, removed and then
re-added at version 2, both versions complete), content 7 is present at
version 2 but the claimed law computes it absent, because 7 lies in both
`added_at(2)` and `removed_at(2)`. -/
theorem C2_counterexample :
    presentAt c2State.relations 2 7 = true ∧
    ((presentAt c2State.relations 1 7 || (addedAt c2State.relations 2).contains 7) &&
        !((removedAt c2State.relations 2).contains 7)) = false ∧
    { number := 1, complete := true } ∈ c2State.versions ∧
    { number := 2, complete := true } ∈ c2State.versions := by
  decide

/-- C2 amended: for every ledger whose records are never removed before
they were added, and every content unit that is not simultaneously
removed-at and present-at version `n+1` (i.e. not removed and re-added
within that same version), consecutive versions obey
`content_at(n+1) = (content_at(n) ∪ added_at(n+1)) - removed_at(n+1)`. -/
theorem C2_amended_consecutive_law (rels : List RepositoryContent) (n c : Nat)
    (hwf : removedNotBelowAdded rels = true)
    (hnorr : ¬((removedAt rels (n + 1)).contains c = true ∧
      presentAt rels (n + 1) c = true)) :
    presentAt rels (n + 1) c =
      ((presentAt rels n c || (addedAt rels (n + 1)).contains c) &&
        !((removedAt rels (n + 1)).contains c)) := by
  by_cases hrem : (removedAt rels (n + 1)).contains c = true
  · have hpres : presentAt rels (n + 1) c = false := by
      cases hp : presentAt rels (n + 1) c
      · rfl
      · exact absurd ⟨hrem, hp⟩ hnorr
    rw [hpres, hrem]
    simp
  · have hrem' : ((removedAt rels (n + 1)).contains c) = false :=
      Bool.not_eq_true _ ▸ Bool.eq_false_iff.mpr hrem
    rw [hrem', Bool.not_false, Bool.and_true]
    have hnomem : c ∉ removedAt rels (n + 1) := by
      intro hmem
      exact hrem (List.elem_iff.mpr hmem)
    rw [Bool.eq_iff_iff, Bool.or_eq_true]
    constructor
    · intro h
      obtain ⟨r, hr, rfl, hcov⟩ := (presentAt_iff _ _ _).mp h
      obtain ⟨hle, hrm⟩ := (coversAt_iff _ _).mp hcov
      rcases Nat.lt_or_ge r.version_added (n + 1) with hlt | hge
      · left
        apply (presentAt_iff _ _ _).mpr
        refine ⟨r, hr, rfl, (coversAt_iff _ _).mpr ⟨by omega, ?_⟩⟩
        rcases hrm with hnone | ⟨m, hm, hmlt⟩
        · exact Or.inl hnone
        · exact Or.inr ⟨m, hm, by omega⟩
      · right
        apply List.elem_iff.mpr
        apply (mem_addedAt _ _ _).mpr
        exact ⟨r, hr, by omega, rfl⟩
    · rintro (h | h)
      · obtain ⟨r, hr, rfl, hcov⟩ := (presentAt_iff _ _ _).mp h
        obtain ⟨hle, hrm⟩ := (coversAt_iff _ _).mp hcov
        apply (presentAt_iff _ _ _).mpr
        refine ⟨r, hr, rfl, (coversAt_iff _ _).mpr ⟨by omega, ?_⟩⟩
        rcases hrm with hnone | ⟨m, hm, hmlt⟩
        · exact Or.inl hnone
        · refine Or.inr ⟨m, hm, ?_⟩
          rcases Nat.lt_or_ge (n + 1) m with h1 | h1
          · exact h1
          · exfalso
            have hmeq : m = n + 1 := by omega
            exact hnomem ((mem_removedAt _ _ _).mpr ⟨r, hr, by rw [hm, hmeq], rfl⟩)
      · obtain ⟨r, hr, hadd, rfl⟩ := (mem_addedAt _ _ _).mp (List.elem_iff.mp h)
        apply (presentAt_iff _ _ _).mpr
        refine ⟨r, hr, rfl, (coversAt_iff _ _).mpr ⟨by omega, ?_⟩⟩
        cases hrm : r.version_removed with
        | none => exact Or.inl rfl
        | some m =>
            refine Or.inr ⟨m, rfl, ?_⟩
            have hge := removedNotBelowAdded_spec rels hwf r hr m hrm
            rcases Nat.lt_or_ge (n + 1) m with h1 | h1
            · exact h1
            · exfalso
              have hmeq : m = n + 1 := by omega
              exact hnomem ((mem_removedAt _ _ _).mpr ⟨r, hr, by rw [hrm, hmeq], rfl⟩)

theorem C2_amended_consecutive_law_witness :
    presentAt [{ content_id := 7, version_added := 1, version_removed := some 2 }] 2 7 =
      ((presentAt [{ content_id := 7, version_added := 1, version_removed := some 2 }] 1 7 ||
          (addedAt [{ content_id := 7, version_added := 1, version_removed := some 2 }] 2).contains 7) &&
        !((removedAt [{ content_id := 7, version_added := 1, version_removed := some 2 }] 2).contains 7)) :=
  C2_amended_consecutive_law _ 1 7 (by decide) (by decide)

/-- The concrete repository used to witness C5: versions 0..1 complete,
version 2 open with no added and no removed records. -/
def c5S : RepoState :=
  { last_version := 2,
    versions := [{ number := 0, complete := true },
                 { number := 1, complete := true },
                 { number := 2, complete := false }],
    relations := [{ content_id := 7, version_added := 1, version_removed := none }] }

theorem C5_noop_elision_witness :
    exitScope c5S { number := 2, complete := false } false baseHook
        = .discarded (deleteVersion c5S { number := 2, complete := false }) ∧
      (deleteVersion c5S { number := 2, complete := false }).relations = c5S.relations ∧
      (deleteVersion c5S { number := 2, complete := false }).last_version = 2 - 1 := by
  have h := C5_noop_elision c5S c5S { number := 2, complete := false } baseHook
    rfl rfl (by decide) (by decide) (by decide) (by decide)
  exact ⟨h.1, h.2.1, h.2.2.1⟩

theorem C6_abort_restores_witness :
    exitScope (mutate (newVersion initialRepo none).1 (newVersion initialRepo none).2
        [MutOp.add [5]]) (newVersion initialRepo none).2 true baseHook
      = .aborted initialRepo ∧
    exitScope (mutate (newVersion initialRepo none).1 (newVersion initialRepo none).2
        [MutOp.add [5]]) (newVersion initialRepo none).2 false
        (fun s => (mutate s (newVersion initialRepo none).2 [MutOp.remove [5]], true))
      = .aborted initialRepo :=
  C6_abort_restores initialRepo [MutOp.add [5]] [MutOp.remove [5]] (by decide) (by decide)

/-! ## Base-version cloning (C4) -/

theorem any_congr {α : Type} (l : List α) (f g : α → Bool)
    (h : ∀ a ∈ l, f a = g a) : l.any f = l.any g := by
  induction l with
  | nil => rfl
  | cons a l ih =>
      simp only [List.any_cons]
      rw [h a (List.mem_cons_self a l), ih (fun x hx => h x (List.mem_cons_of_mem a hx))]

theorem any_and_const {α : Type} (l : List α) (f : α → Bool) (b : Bool) :
    l.any (fun a => f a && b) = (l.any f && b) := by
  cases b with
  | true => simp
  | false => simp

/-- The currently-active content test: some ledger record for `c` has
`version_removed = null`. -/
def activeB (rels : List RepositoryContent) (c : Nat) : Bool :=
  rels.any (fun r => r.content_id == c && r.version_removed == none)

/-- On a ledger whose boundaries are all at most `n`, presence at any
version `k ≥ n` is just being active (having an unremoved record). -/
theorem presentAt_of_bounded (rels : List RepositoryContent) (n k c : Nat)
    (hb : ∀ r ∈ rels, r.version_added ≤ n ∧
      ∀ m, r.version_removed = some m → m ≤ n)
    (hk : n ≤ k) :
    presentAt rels k c = activeB rels c := by
  unfold presentAt activeB
  apply any_congr
  intro r hr
  cases hrm : r.version_removed with
  | none =>
      have hcov : coversAt r k = true := by
        rw [coversAt_iff]
        exact ⟨Nat.le_trans (hb r hr).1 hk, Or.inl hrm⟩
      simp [hcov, hrm]
  | some m =>
      have hcov : coversAt r k = false := by
        rw [Bool.eq_false_iff]
        intro hc
        rcases ((coversAt_iff r k).mp hc).2 with hnone | ⟨m', hm', hlt⟩
        · rw [hrm] at hnone; cases hnone
        · rw [hrm] at hm'
          injection hm' with hm'
          have := (hb r hr).2 m hrm
          omega
      simp [hcov, hrm]

theorem mem_contentList (rels : List RepositoryContent) (k c : Nat) :
    c ∈ contentList rels k ↔ presentAt rels k c = true := by
  simp only [contentList, List.mem_map, List.mem_filter, presentAt,
    List.any_eq_true, Bool.and_eq_true, beq_iff_eq]
  constructor
  · rintro ⟨r, ⟨hr, hcov⟩, rfl⟩
    exact ⟨r, hr, rfl, hcov⟩
  · rintro ⟨r, hr, rfl, hcov⟩
    exact ⟨r, ⟨hr, hcov⟩, rfl⟩

theorem any_map2 {α β : Type} (l : List α) (f : α → β) (p : β → Bool) :
    (l.map f).any p = l.any (fun a => p (f a)) := by
  induction l with
  | nil => rfl
  | cons a l ih => simp only [List.map_cons, List.any_cons, ih]

theorem contains_iff (l : List Nat) (a : Nat) : l.contains a = true ↔ a ∈ l :=
  List.elem_iff

theorem coversAt_false_of_removed_le (r : RepositoryContent) (k m : Nat)
    (hm : r.version_removed = some m) (hle : m ≤ k) : coversAt r k = false := by
  rw [Bool.eq_false_iff]
  intro hc
  rcases ((coversAt_iff r k).mp hc).2 with hnone | ⟨m', hm', hlt⟩
  · rw [hm] at hnone; cases hnone
  · rw [hm] at hm'
    injection hm' with h
    omega

theorem coversAt_true_of (r : RepositoryContent) (k : Nat)
    (ha : r.version_added ≤ k) (hm : r.version_removed = none) :
    coversAt r k = true :=
  (coversAt_iff r k).mpr ⟨ha, Or.inl hm⟩

/-- After the base-version seeding removal pass at the open version
`n + 1`, a unit is present there iff it was active and not slated for
removal. -/
theorem present_after_remove_ids (rels : List RepositoryContent) (n : Nat)
    (ids : List Nat)
    (hb : ∀ r ∈ rels, r.version_added ≤ n ∧
      ∀ m, r.version_removed = some m → m ≤ n)
    (c : Nat) :
    presentAt (rels.map (fun r =>
        if r.version_removed == none && ids.contains r.content_id
        then { r with version_removed := some (n + 1) } else r)) (n + 1) c
      = (activeB rels c && !(ids.contains c)) := by
  unfold presentAt activeB
  rw [any_map2,
    ← any_and_const rels (fun r => r.content_id == c && r.version_removed == none)
      (!(ids.contains c))]
  apply any_congr
  intro r hr
  have hb1 := (hb r hr).1
  have hb2 := (hb r hr).2
  obtain ⟨rc, ra, rr⟩ := r
  by_cases hc : rc = c
  · subst hc
    cases rr with
    | some m =>
        have hcov : coversAt ⟨rc, ra, some m⟩ (n + 1) = false :=
          coversAt_false_of_removed_le _ _ m rfl (Nat.le_succ_of_le (hb2 m rfl))
        simp [hcov]
    | none =>
        by_cases hmem : rc ∈ ids
        · have hcov : coversAt ⟨rc, ra, some (n + 1)⟩ (n + 1) = false :=
            coversAt_false_of_removed_le _ _ (n + 1) rfl (Nat.le_refl _)
          simp [hmem, hcov]
        · have hcov : coversAt ⟨rc, ra, none⟩ (n + 1) = true :=
            coversAt_true_of _ _ (by simpa using Nat.le_succ_of_le hb1) rfl
          simp [hmem, hcov]
  · have hcc : (rc == c) = false := by simp [hc]
    split <;> simp [hcc]

/-- The seeding removal set of `new_version(base_version)`:
`version.content.exclude(pk__in=base_version.content)`, evaluated against
the just-opened version `n + 1`. -/
def seedToRemove (rels : List RepositoryContent) (n : Nat) (base : List Nat) :
    List Nat :=
  (contentList rels (n + 1)).filter (fun c => !(base.contains c))

/-- The ledger after the seeding `remove_content` pass of `new_version`. -/
def seedStamped (rels : List RepositoryContent) (n : Nat) (base : List Nat) :
    List RepositoryContent :=
  rels.map (fun r =>
    if r.version_removed == none && (seedToRemove rels n base).contains r.content_id
    then { r with version_removed := some (n + 1) } else r)

/-- The ledger after the full seeding of `new_version(base_version)`:
the removal pass followed by the `add_content` pass (whose argument
queryset and whose internal `exclude` apply the same presence filter). -/
def seedRels (rels : List RepositoryContent) (n : Nat) (base : List Nat) :
    List RepositoryContent :=
  seedStamped rels n base ++
    ((base.filter (fun c => !(presentAt (seedStamped rels n base) (n + 1) c))).filter
        (fun c => !(presentAt (seedStamped rels n base) (n + 1) c))).map
      (fun c => { content_id := c, version_added := n + 1, version_removed := none })

theorem newVersion_relations (s : RepoState) (base : List Nat) :
    (newVersion s (some base)).1.relations = seedRels s.relations s.last_version base :=
  rfl

theorem newVersion_versions (s : RepoState) (base : List Nat) :
    (newVersion s (some base)).1.versions
      = s.versions ++ [{ number := s.last_version + 1, complete := false }] :=
  rfl

/-- Membership in the seeding removal set. -/
theorem mem_toRemove (rels : List RepositoryContent) (n : Nat) (base : List Nat)
    (hb : ∀ r ∈ rels, r.version_added ≤ n ∧
      ∀ m, r.version_removed = some m → m ≤ n)
    (c : Nat) :
    (seedToRemove rels n base).contains c
      = (activeB rels c && !(base.contains c)) := by
  unfold seedToRemove
  rw [Bool.eq_iff_iff, contains_iff, List.mem_filter, Bool.and_eq_true,
    mem_contentList, presentAt_of_bounded rels n (n + 1) c hb (Nat.le_succ n)]

theorem bool_absorb (a b : Bool) : (a && !(a && !b)) = (a && b) := by
  cases a <;> cases b <;> rfl

theorem seedStamped_presentAt (rels : List RepositoryContent) (n : Nat)
    (base : List Nat)
    (hb : ∀ r ∈ rels, r.version_added ≤ n ∧
      ∀ m, r.version_removed = some m → m ≤ n)
    (c : Nat) :
    presentAt (seedStamped rels n base) (n + 1) c
      = (activeB rels c && base.contains c) := by
  unfold seedStamped
  rw [present_after_remove_ids rels n (seedToRemove rels n base) hb c,
    mem_toRemove rels n base hb c]
  exact bool_absorb _ _

theorem presentAt_append (a b : List RepositoryContent) (k c : Nat) :
    presentAt (a ++ b) k c = (presentAt a k c || presentAt b k c) := by
  unfold presentAt
  exact List.any_append

/-- After the full seeding of `new_version(base_version)`, the content of
the open version `n + 1` is exactly the base version's content set. -/
theorem seedRels_presentAt (rels : List RepositoryContent) (n : Nat)
    (base : List Nat)
    (hb : ∀ r ∈ rels, r.version_added ≤ n ∧
      ∀ m, r.version_removed = some m → m ≤ n)
    (c : Nat) :
    presentAt (seedRels rels n base) (n + 1) c = base.contains c := by
  unfold seedRels
  rw [presentAt_append]
  have hq : ((base.filter (fun c => !(presentAt (seedStamped rels n base) (n + 1) c))).filter
        (fun c => !(presentAt (seedStamped rels n base) (n + 1) c)))
      = base.filter (fun c => !(presentAt (seedStamped rels n base) (n + 1) c)) := by
    rw [List.filter_filter]
    apply List.filter_congr
    intro a _
    exact Bool.and_self _
  rw [hq]
  have hnews : presentAt ((base.filter (fun c =>
        !(presentAt (seedStamped rels n base) (n + 1) c))).map
      (fun c => { content_id := c, version_added := n + 1, version_removed := none }))
      (n + 1) c
      = (base.filter (fun c =>
          !(presentAt (seedStamped rels n base) (n + 1) c))).any (fun x => x == c) := by
    unfold presentAt
    rw [any_map2]
    apply any_congr
    intro x _
    have hcov : coversAt ⟨x, n + 1, none⟩ (n + 1) = true :=
      coversAt_true_of _ _ (Nat.le_refl _) rfl
    simp [hcov]
  rw [hnews, seedStamped_presentAt rels n base hb c, Bool.eq_iff_iff]
  constructor
  · intro h
    rcases Bool.or_eq_true _ _ |>.mp h with h1 | h2
    · exact (Bool.and_eq_true _ _ |>.mp h1).2
    · obtain ⟨x, hx, hxc⟩ := List.any_eq_true.mp h2
      obtain ⟨hxb, _⟩ := List.mem_filter.mp hx
      have : x = c := by simpa using hxc
      subst this
      exact contains_iff base x |>.mpr hxb
  · intro h
    rw [Bool.or_eq_true]
    by_cases hp : presentAt (seedStamped rels n base) (n + 1) c = true
    · left
      rw [seedStamped_presentAt rels n base hb c] at hp
      rw [hp]
    · right
      apply List.any_eq_true.mpr
      refine ⟨c, List.mem_filter.mpr ⟨contains_iff base c |>.mp h, ?_⟩, by simp⟩
      have hp2 : presentAt (seedStamped rels n base) (n + 1) c = false :=
        Bool.eq_false_iff.mpr hp
      rw [hp2]
      rfl

theorem addedAt_eq_nil_iff (l : List RepositoryContent) (k : Nat) :
    addedAt l k = [] ↔ ∀ r ∈ l, r.version_added ≠ k := by
  unfold addedAt
  rw [List.map_eq_nil_iff, List.filter_eq_nil_iff]
  constructor
  · intro h r hr
    have := h r hr
    simpa using this
  · intro h r hr
    simpa using h r hr

theorem removedAt_eq_nil_iff (l : List RepositoryContent) (k : Nat) :
    removedAt l k = [] ↔ ∀ r ∈ l, r.version_removed ≠ some k := by
  unfold removedAt
  rw [List.map_eq_nil_iff, List.filter_eq_nil_iff]
  constructor
  · intro h r hr
    have := h r hr
    simpa using this
  · intro h r hr
    simpa using h r hr

/-- The seeded ledger has an empty `added_at(n+1)` iff every base unit was
already active in the repository. -/
theorem seedRels_added_nil_iff (rels : List RepositoryContent) (n : Nat)
    (base : List Nat)
    (hb : ∀ r ∈ rels, r.version_added ≤ n ∧
      ∀ m, r.version_removed = some m → m ≤ n) :
    (addedAt (seedRels rels n base) (n + 1) = []) ↔
      ∀ c ∈ base, activeB rels c = true := by
  rw [addedAt_eq_nil_iff]
  constructor
  · intro h c hc
    by_contra hact
    have hactf : activeB rels c = false := Bool.eq_false_iff.mpr hact
    have hq : (!(presentAt (seedStamped rels n base) (n + 1) c)) = true := by
      rw [seedStamped_presentAt rels n base hb c, hactf]
      rfl
    have hmem : ({ content_id := c, version_added := n + 1, version_removed := none } :
        RepositoryContent) ∈ seedRels rels n base := by
      unfold seedRels
      apply List.mem_append.mpr
      right
      apply List.mem_map.mpr
      exact ⟨c, List.mem_filter.mpr ⟨List.mem_filter.mpr ⟨hc, hq⟩, hq⟩, rfl⟩
    exact h _ hmem rfl
  · intro h r hr
    unfold seedRels at hr
    rcases List.mem_append.mp hr with hr | hr
    · unfold seedStamped at hr
      obtain ⟨r0, hr0, rfl⟩ := List.mem_map.mp hr
      have h1 := (hb r0 hr0).1
      have hadd : (if r0.version_removed == none &&
            (seedToRemove rels n base).contains r0.content_id
          then { r0 with version_removed := some (n + 1) } else r0).version_added
          = r0.version_added := by
        split <;> rfl
      rw [hadd]
      omega
    · obtain ⟨c, hcmem, rfl⟩ := List.mem_map.mp hr
      obtain ⟨hcf, hq⟩ := List.mem_filter.mp hcmem
      obtain ⟨hcb, _⟩ := List.mem_filter.mp hcf
      intro _
      have hcc : base.contains c = true := contains_iff base c |>.mpr hcb
      have hac := h c hcb
      rw [Bool.not_eq_true', seedStamped_presentAt rels n base hb c, hac, hcc] at hq
      cases hq

/-- The seeded ledger has an empty `removed_at(n+1)` iff every active unit
is kept by the base content set. -/
theorem seedRels_removed_nil_iff (rels : List RepositoryContent) (n : Nat)
    (base : List Nat)
    (hb : ∀ r ∈ rels, r.version_added ≤ n ∧
      ∀ m, r.version_removed = some m → m ≤ n) :
    (removedAt (seedRels rels n base) (n + 1) = []) ↔
      ∀ c, activeB rels c = true → base.contains c = true := by
  rw [removedAt_eq_nil_iff]
  constructor
  · intro h c hact
    by_contra hcon
    have hcontains : base.contains c = false := Bool.eq_false_iff.mpr hcon
    obtain ⟨r, hr, hrc⟩ := List.any_eq_true.mp hact
    obtain ⟨hrcc, hrnone⟩ := Bool.and_eq_true _ _ |>.mp hrc
    have hrcc' : r.content_id = c := by simpa using hrcc
    have hrnone' : r.version_removed = none := by simpa using hrnone
    have htr : (seedToRemove rels n base).contains r.content_id = true := by
      rw [hrcc', mem_toRemove rels n base hb c, hact, hcontains]
      rfl
    have hmem : ({ r with version_removed := some (n + 1) } : RepositoryContent)
        ∈ seedRels rels n base := by
      unfold seedRels
      apply List.mem_append.mpr
      left
      unfold seedStamped
      apply List.mem_map.mpr
      refine ⟨r, hr, ?_⟩
      rw [if_pos (by rw [hrnone', htr]; rfl)]
    exact h _ hmem rfl
  · intro h r hr
    unfold seedRels at hr
    rcases List.mem_append.mp hr with hr | hr
    · unfold seedStamped at hr
      obtain ⟨r0, hr0, rfl⟩ := List.mem_map.mp hr
      by_cases hcond : (r0.version_removed == none &&
          (seedToRemove rels n base).contains r0.content_id) = true
      · exfalso
        obtain ⟨h1, h2⟩ := Bool.and_eq_true _ _ |>.mp hcond
        have hrnone : r0.version_removed = none := by simpa using h1
        have hact : activeB rels r0.content_id = true :=
          List.any_eq_true.mpr ⟨r0, hr0, by rw [hrnone]; simp⟩
        have hcont := h _ hact
        rw [mem_toRemove rels n base hb _, hact, hcont] at h2
        simp at h2
      · rw [if_neg hcond]
        intro hk
        have := (hb r0 hr0).2 _ hk
        omega
    · obtain ⟨c, _, rfl⟩ := List.mem_map.mp hr
      intro hk
      cases hk

/-- C4 amended: beginning a new version from a base version yields, right
after `new_version` returns, an open version whose `content_at` equals the
base version's content set exactly, expressed through diff records only;
and whenever that set differs from the repository's current content,
finalizing with no further mutation completes the version, which persists
with that same content. (When the base content coincides with the current
content, the finalize step discards the version by no-op elision instead
of completing it — the corner the original claim misses.) -/
theorem C4_amended_base_clone (s : RepoState) (base : List Nat)
    (hbr : boundedRelations s = true) :
    (∀ c, presentAt (newVersion s (some base)).1.relations (s.last_version + 1) c
        = base.contains c) ∧
    (¬(∀ c, presentAt s.relations s.last_version c = base.contains c) →
      exitScope (newVersion s (some base)).1 (newVersion s (some base)).2 false baseHook
          = .completed (markComplete (newVersion s (some base)).1
              (newVersion s (some base)).2) ∧
        ({ number := s.last_version + 1, complete := true } : VersionRow)
          ∈ (markComplete (newVersion s (some base)).1
              (newVersion s (some base)).2).versions ∧
        ∀ c, presentAt (markComplete (newVersion s (some base)).1
            (newVersion s (some base)).2).relations (s.last_version + 1) c
          = base.contains c) := by
  have hb := boundedRelations_spec s hbr
  have hpres : ∀ c, presentAt (newVersion s (some base)).1.relations
      (s.last_version + 1) c = base.contains c := by
    intro c
    rw [newVersion_relations]
    exact seedRels_presentAt s.relations s.last_version base hb c
  refine ⟨hpres, ?_⟩
  intro hne
  have hnotboth : ¬(addedAt (seedRels s.relations s.last_version base)
        (s.last_version + 1) = [] ∧
      removedAt (seedRels s.relations s.last_version base)
        (s.last_version + 1) = []) := by
    rintro ⟨ha, hrm⟩
    apply hne
    intro c
    rw [presentAt_of_bounded s.relations s.last_version s.last_version c hb
      (Nat.le_refl _)]
    have h1 := (seedRels_added_nil_iff s.relations s.last_version base hb).mp ha
    have h2 := (seedRels_removed_nil_iff s.relations s.last_version base hb).mp hrm
    by_cases hcB : base.contains c = true
    · rw [hcB]
      exact h1 c (contains_iff base c |>.mp hcB)
    · have hcB2 : base.contains c = false := Bool.eq_false_iff.mpr hcB
      rw [hcB2]
      by_contra hact
      have hact2 : activeB s.relations c = true := by
        cases hx : activeB s.relations c
        · exact absurd hx hact
        · rfl
      rw [h2 c hact2] at hcB2
      cases hcB2
  have h2v : (newVersion s (some base)).2
      = { number := s.last_version + 1, complete := false } := rfl
  have hcond : ((addedAt (newVersion s (some base)).1.relations
        (newVersion s (some base)).2.number).isEmpty &&
      (removedAt (newVersion s (some base)).1.relations
        (newVersion s (some base)).2.number).isEmpty) = false := by
    rw [h2v, newVersion_relations]
    by_cases ha : addedAt (seedRels s.relations s.last_version base)
        (s.last_version + 1) = []
    · have hr : ¬(removedAt (seedRels s.relations s.last_version base)
          (s.last_version + 1) = []) := fun hrm => hnotboth ⟨ha, hrm⟩
      have : (removedAt (seedRels s.relations s.last_version base)
          (s.last_version + 1)).isEmpty = false := by
        rw [Bool.eq_false_iff]
        intro hcontra
        exact hr (List.isEmpty_iff.mp hcontra)
      rw [this, Bool.and_false]
    · have : (addedAt (seedRels s.relations s.last_version base)
          (s.last_version + 1)).isEmpty = false := by
        rw [Bool.eq_false_iff]
        intro hcontra
        exact ha (List.isEmpty_iff.mp hcontra)
      rw [this, Bool.false_and]
  refine ⟨?_, ?_, fun c => hpres c⟩
  · unfold exitScope
    simp only [baseHook, hcond]
    rfl
  · unfold markComplete
    simp only [newVersion_versions, List.map_append]
    apply List.mem_append.mpr
    right
    rw [h2v]
    simp

/-! ## Deleting a complete version: squash (C1) -/

theorem minNat?_eq_none_iff (l : List Nat) : minNat? l = none ↔ l = [] := by
  cases l with
  | nil => simp [minNat?]
  | cons n ns =>
      simp only [minNat?]
      cases h : minNat? ns <;> simp

theorem minNat?_mem (l : List Nat) (m : Nat) (h : minNat? l = some m) : m ∈ l := by
  induction l generalizing m with
  | nil => cases h
  | cons n ns ih =>
      simp only [minNat?] at h
      cases hm : minNat? ns with
      | none =>
          rw [hm] at h
          injection h with h
          subst h
          exact List.mem_cons_self _ _
      | some m2 =>
          rw [hm] at h
          injection h with h
          subst h
          by_cases hle : n ≤ m2
          · rw [if_pos hle]
            exact List.mem_cons_self _ _
          · rw [if_neg hle]
            exact List.mem_cons_of_mem _ (ih m2 hm)

theorem minNat?_le (l : List Nat) (m : Nat) (h : minNat? l = some m) :
    ∀ x ∈ l, m ≤ x := by
  induction l generalizing m with
  | nil => cases h
  | cons n ns ih =>
      simp only [minNat?] at h
      intro x hx
      cases hm : minNat? ns with
      | none =>
          rw [hm] at h
          injection h with h
          subst h
          have : ns = [] := (minNat?_eq_none_iff ns).mp hm
          subst this
          rcases List.mem_cons.mp hx with rfl | hx
          · exact Nat.le_refl _
          · cases hx
      | some m2 =>
          rw [hm] at h
          injection h with h
          subst h
          rcases List.mem_cons.mp hx with heq | hx
          · subst heq
            by_cases hle : x ≤ m2
            · rw [if_pos hle]
            · rw [if_neg hle]
              omega
          · by_cases hle : n ≤ m2
            · rw [if_pos hle]
              exact Nat.le_trans hle (ih m2 hm x hx)
            · rw [if_neg hle]
              exact ih m2 hm x hx

/-- What `next()` returning a version means: its number is the least
number of a complete version greater than `vnum`. -/
theorem nextComplete_spec_some (s : RepoState) (vnum nn : Nat)
    (h : nextComplete s vnum = some nn) :
    vnum < nn ∧ (∃ w ∈ s.versions, w.complete = true ∧ w.number = nn) ∧
      ∀ w ∈ s.versions, w.complete = true → vnum < w.number → nn ≤ w.number := by
  unfold nextComplete at h
  have hmem := minNat?_mem _ _ h
  have hle := minNat?_le _ _ h
  obtain ⟨w, hwf, rfl⟩ := List.mem_map.mp hmem
  obtain ⟨hw, hcond⟩ := List.mem_filter.mp hwf
  obtain ⟨h1, h2⟩ := Bool.and_eq_true _ _ |>.mp hcond
  refine ⟨by simpa using h2, ⟨w, hw, h1, rfl⟩, ?_⟩
  intro w2 hw2 hc2 hgt2
  apply hle
  exact List.mem_map.mpr
    ⟨w2, List.mem_filter.mpr ⟨hw2, by rw [hc2]; simpa using hgt2⟩, rfl⟩

/-- What `next()` raising `DoesNotExist` means: no complete version has a
greater number. -/
theorem nextComplete_spec_none (s : RepoState) (vnum : Nat)
    (h : nextComplete s vnum = none) :
    ∀ w ∈ s.versions, w.complete = true → w.number ≤ vnum := by
  unfold nextComplete at h
  rw [minNat?_eq_none_iff, List.map_eq_nil_iff, List.filter_eq_nil_iff] at h
  intro w hw hc
  have := h w hw
  rw [hc] at this
  simpa using this

theorem mem_squashRels1 (rels : List RepositoryContent) (vn nn : Nat)
    (r : RepositoryContent) :
    r ∈ squashRels1 rels vn nn ↔
      r ∈ rels ∧ ¬(r.version_added = vn ∧ r.version_removed = some nn) := by
  unfold squashRels1
  rw [List.mem_filter]
  simp only [Bool.not_eq_eq_eq_not, Bool.not_true, Bool.and_eq_false_iff,
    beq_eq_false_iff_ne, ne_eq, and_congr_right_iff]
  intro _
  constructor
  · rintro (h | h) <;> rintro ⟨ha, hb⟩
    · exact h ha
    · exact h hb
  · intro h
    by_cases ha : r.version_added = vn
    · exact Or.inr (fun hb => h ⟨ha, hb⟩)
    · exact Or.inl ha

theorem mem_squashCrr (rels : List RepositoryContent) (vn nn c : Nat) :
    c ∈ squashCrr rels vn nn ↔
      (∃ r ∈ squashRels1 rels vn nn, r.version_removed = some vn ∧ r.content_id = c) ∧
      (∃ r2 ∈ squashRels1 rels vn nn, r2.version_added = nn ∧ r2.content_id = c) := by
  unfold squashCrr squashContentAdded
  constructor
  · intro h
    obtain ⟨r, hrf, rfl⟩ := List.mem_map.mp h
    obtain ⟨hr1, hcond⟩ := List.mem_filter.mp hrf
    obtain ⟨h1, h2⟩ := Bool.and_eq_true _ _ |>.mp hcond
    refine ⟨⟨r, hr1, by simpa using h1, rfl⟩, ?_⟩
    have h2m := contains_iff _ _ |>.mp h2
    obtain ⟨r2, hr2f, hr2c⟩ := List.mem_map.mp h2m
    obtain ⟨hr2, hadd⟩ := List.mem_filter.mp hr2f
    exact ⟨r2, hr2, by simpa using hadd, hr2c⟩
  · rintro ⟨⟨r, hr1, hrm, rfl⟩, ⟨r2, hr2, hadd, hc2⟩⟩
    apply List.mem_map.mpr
    refine ⟨r, List.mem_filter.mpr ⟨hr1, ?_⟩, rfl⟩
    rw [Bool.and_eq_true]
    refine ⟨by simp [hrm], ?_⟩
    apply contains_iff _ _ |>.mpr
    exact List.mem_map.mpr ⟨r2, List.mem_filter.mpr ⟨hr2, by simp [hadd]⟩, hc2⟩

/-- The per-record effect of `_squash` steps 3, 5 and 6 on a surviving
record (step 3 clears the removal of removed-and-readded content, step 5
moves `version_added = vn` to `nn`, step 6 moves `version_removed = vn`
to `nn`). -/
def squashMap (crr : List Nat) (vn nn : Nat) (r : RepositoryContent) :
    RepositoryContent :=
  let r2 := if r.version_removed == some vn && crr.contains r.content_id
            then { r with version_removed := none } else r
  let r4 := if r2.version_added == vn then { r2 with version_added := nn } else r2
  if r4.version_removed == some vn then { r4 with version_removed := some nn } else r4

theorem squashMap_eq (crr : List Nat) (vn nn rc ra : Nat) (rr : Option Nat) :
    squashMap crr vn nn ⟨rc, ra, rr⟩ =
      ⟨rc,
        if ra == vn then nn else ra,
        if rr == some vn && crr.contains rc then none
        else if rr == some vn then some nn else rr⟩ := by
  unfold squashMap
  by_cases h3 : (rr == some vn && crr.contains rc) = true
  · have hrr : rr = some vn := by
      have := (Bool.and_eq_true _ _ |>.mp h3).1
      simpa using this
    simp only [h3, if_true]
    by_cases h5 : (ra == vn) = true
    · simp [h5]
    · simp [Bool.eq_false_iff.mpr h5]
  · have h3f : (rr == some vn && crr.contains rc) = false := Bool.eq_false_iff.mpr h3
    simp only [h3f, Bool.false_eq_true, if_false]
    by_cases h5 : (ra == vn) = true
    · by_cases h6 : (rr == some vn) = true
      · simp [h5, h6]
      · simp [h5, Bool.eq_false_iff.mpr h6]
    · by_cases h6 : (rr == some vn) = true
      · simp [Bool.eq_false_iff.mpr h5, h6]
      · simp [Bool.eq_false_iff.mpr h5, Bool.eq_false_iff.mpr h6]

/-- `_squash` as one filter-then-map pass: the step-3 update commutes with
the step-4 filter because the update changes neither `version_added` nor
the content id. -/
theorem squash_eq (rels : List RepositoryContent) (vn nn : Nat) :
    squash rels vn nn
      = ((squashRels1 rels vn nn).filter (fun r =>
          !(r.version_added == nn && (squashCrr rels vn nn).contains r.content_id))).map
        (squashMap (squashCrr rels vn nn) vn nn) := by
  unfold squash
  dsimp only
  rw [List.filter_map, List.map_map, List.map_map]
  have hfil : (squashRels1 rels vn nn).filter ((fun r : RepositoryContent =>
        !(r.version_added == nn && (squashCrr rels vn nn).contains r.content_id)) ∘
      (fun r => if r.version_removed == some vn &&
          (squashCrr rels vn nn).contains r.content_id
        then { r with version_removed := none } else r))
      = (squashRels1 rels vn nn).filter (fun r =>
          !(r.version_added == nn && (squashCrr rels vn nn).contains r.content_id)) := by
    apply List.filter_congr
    intro r _
    simp only [Function.comp_apply]
    split <;> rfl
  rw [hfil]
  apply List.map_congr_left
  intro r _
  rfl

theorem squash_any_iff (rels : List RepositoryContent) (vn nn k c : Nat) :
    presentAt (squash rels vn nn) k c = true ↔
      ∃ r ∈ squashRels1 rels vn nn,
        (r.version_added == nn &&
          (squashCrr rels vn nn).contains r.content_id) = false ∧
        ((squashMap (squashCrr rels vn nn) vn nn r).content_id == c &&
          coversAt (squashMap (squashCrr rels vn nn) vn nn r) k) = true := by
  rw [squash_eq]
  unfold presentAt
  rw [any_map2, List.any_filter, List.any_eq_true]
  constructor
  · rintro ⟨r, hr, hcond⟩
    obtain ⟨h1, h2⟩ := Bool.and_eq_true _ _ |>.mp hcond
    rw [Bool.not_eq_true'] at h1
    exact ⟨r, hr, h1, h2⟩
  · rintro ⟨r, hr, h1, h2⟩
    refine ⟨r, hr, Bool.and_eq_true _ _ |>.mpr ⟨?_, h2⟩⟩
    rw [h1]
    rfl

theorem squashCrr_intro (rels : List RepositoryContent) (vn nn : Nat)
    (hvn : vn < nn) (r1 r2 : RepositoryContent)
    (h1 : r1 ∈ rels) (hrm : r1.version_removed = some vn)
    (h2 : r2 ∈ rels) (hadd : r2.version_added = nn)
    (hc : r2.content_id = r1.content_id) :
    r1.content_id ∈ squashCrr rels vn nn := by
  rw [mem_squashCrr]
  constructor
  · refine ⟨r1, (mem_squashRels1 _ _ _ _).mpr ⟨h1, ?_⟩, hrm, rfl⟩
    rintro ⟨_, hx⟩
    rw [hrm] at hx
    injection hx with hx
    omega
  · refine ⟨r2, (mem_squashRels1 _ _ _ _).mpr ⟨h2, ?_⟩, hadd, hc⟩
    rintro ⟨hx, _⟩
    omega

theorem squashCrr_elim (rels : List RepositoryContent) (vn nn c0 : Nat)
    (h : c0 ∈ squashCrr rels vn nn) :
    (∃ r1 ∈ rels, r1.version_removed = some vn ∧ r1.content_id = c0) ∧
    (∃ r2 ∈ rels, r2.version_added = nn ∧ r2.content_id = c0) := by
  rw [mem_squashCrr] at h
  obtain ⟨⟨r1, hr1, hrm, hc⟩, ⟨r2, hr2, hadd, hc2⟩⟩ := h
  exact ⟨⟨r1, ((mem_squashRels1 _ _ _ _).mp hr1).1, hrm, hc⟩,
    ⟨r2, ((mem_squashRels1 _ _ _ _).mp hr2).1, hadd, hc2⟩⟩

/-- Forward preservation: whatever is present at a version `k` outside
`[vn, nn)` after the squash was already present before it. -/
theorem squash_present_mp (rels : List RepositoryContent) (vn nn k c : Nat)
    (hvn : vn < nn)
    (hsafe : ∀ r ∈ rels, r.version_removed = some vn → ∀ r2 ∈ rels,
      r2.version_added = nn → r2.content_id = r.content_id →
        r2.version_removed = none)
    (hk : k < vn ∨ nn ≤ k) :
    presentAt (squash rels vn nn) k c = true → presentAt rels k c = true := by
  intro h
  obtain ⟨r, hr1, hfilt, hp⟩ := (squash_any_iff rels vn nn k c).mp h
  have hrmem : r ∈ rels := ((mem_squashRels1 rels vn nn r).mp hr1).1
  obtain ⟨rc, ra, rr⟩ := r
  rw [squashMap_eq] at hp
  obtain ⟨hpc, hpcov⟩ := Bool.and_eq_true _ _ |>.mp hp
  have hrc : rc = c := by simpa using hpc
  by_cases h3 : (rr == some vn && (squashCrr rels vn nn).contains rc) = true
  · obtain ⟨h3a, h3b⟩ := Bool.and_eq_true _ _ |>.mp h3
    have hrr : rr = some vn := by simpa using h3a
    rcases hk with hklt | hkge
    · -- k < vn: the record itself still covers k before the squash
      rw [if_pos h3] at hpcov
      have h5 : (ra == vn) = false := by
        rw [beq_eq_false_iff_ne]
        intro hra
        have h5t : (ra == vn) = true := by rw [hra]; exact beq_self_eq_true vn
        rw [if_pos h5t] at hpcov
        have : nn ≤ k := ((coversAt_iff _ k).mp hpcov).1
        omega
      have h5n : ¬((ra == vn) = true) := by rw [h5]; exact Bool.false_ne_true
      rw [if_neg h5n] at hpcov
      have hra : ra ≤ k := ((coversAt_iff _ k).mp hpcov).1
      unfold presentAt
      rw [List.any_eq_true]
      refine ⟨⟨rc, ra, rr⟩, hrmem, Bool.and_eq_true _ _ |>.mpr ⟨by simp [hrc], ?_⟩⟩
      exact (coversAt_iff _ k).mpr ⟨hra, Or.inr ⟨vn, hrr, hklt⟩⟩
    · -- nn ≤ k: the re-addition record, which the safety hypothesis keeps
      -- unbounded, covers k before the squash
      have hccrr : rc ∈ squashCrr rels vn nn := contains_iff _ _ |>.mp h3b
      obtain ⟨_, ⟨r2, hr2mem, hr2add, hr2c⟩⟩ := squashCrr_elim rels vn nn rc hccrr
      have hr2none : r2.version_removed = none :=
        hsafe ⟨rc, ra, rr⟩ hrmem hrr r2 hr2mem hr2add hr2c
      unfold presentAt
      rw [List.any_eq_true]
      refine ⟨r2, hr2mem, Bool.and_eq_true _ _ |>.mpr ⟨by simp [hr2c, hrc], ?_⟩⟩
      refine (coversAt_iff _ k).mpr ⟨?_, Or.inl hr2none⟩
      rw [hr2add]
      omega
  · rw [if_neg h3] at hpcov
    by_cases h6 : (rr == some vn) = true
    · have hrr : rr = some vn := by simpa using h6
      rw [if_pos h6] at hpcov
      by_cases h5 : (ra == vn) = true
      · rw [if_pos h5] at hpcov
        have hcov := (coversAt_iff _ k).mp hpcov
        have h1 : nn ≤ k := hcov.1
        rcases hcov.2 with hx | ⟨m, hm, hmlt⟩
        · cases hx
        · have hm2 : nn = m := by injection hm
          exact (False.elim (by omega))
      · rw [if_neg h5] at hpcov
        have hcov := (coversAt_iff _ k).mp hpcov
        have hra : ra ≤ k := hcov.1
        have hklt : k < nn := by
          rcases hcov.2 with hx | ⟨m, hm, hmlt⟩
          · cases hx
          · have hm2 : nn = m := by injection hm
            omega
        have hklt2 : k < vn := by
          rcases hk with h0 | h0
          · exact h0
          · omega
        unfold presentAt
        rw [List.any_eq_true]
        refine ⟨⟨rc, ra, rr⟩, hrmem, Bool.and_eq_true _ _ |>.mpr ⟨by simp [hrc], ?_⟩⟩
        exact (coversAt_iff _ k).mpr ⟨hra, Or.inr ⟨vn, hrr, hklt2⟩⟩
    · rw [if_neg h6] at hpcov
      by_cases h5 : (ra == vn) = true
      · have hra : ra = vn := by simpa using h5
        rw [if_pos h5] at hpcov
        have hcov := (coversAt_iff _ k).mp hpcov
        have hnnk : nn ≤ k := hcov.1
        unfold presentAt
        rw [List.any_eq_true]
        refine ⟨⟨rc, ra, rr⟩, hrmem, Bool.and_eq_true _ _ |>.mpr ⟨by simp [hrc], ?_⟩⟩
        refine (coversAt_iff _ k).mpr ⟨by show ra ≤ k; omega, ?_⟩
        rcases hcov.2 with hx | ⟨m, hm, hmlt⟩
        · exact Or.inl hx
        · exact Or.inr ⟨m, hm, hmlt⟩
      · rw [if_neg h5] at hpcov
        have hcov := (coversAt_iff _ k).mp hpcov
        unfold presentAt
        rw [List.any_eq_true]
        refine ⟨⟨rc, ra, rr⟩, hrmem, Bool.and_eq_true _ _ |>.mpr ⟨by simp [hrc], ?_⟩⟩
        exact (coversAt_iff _ k).mpr hcov

/-- Backward preservation: whatever was present at a version `k` outside
`[vn, nn)` before the squash is still present after it. -/
theorem squash_present_mpr (rels : List RepositoryContent) (vn nn k c : Nat)
    (hvn : vn < nn)
    (hwf : ∀ r ∈ rels, ∀ m, r.version_removed = some m → r.version_added ≤ m)
    (hk : k < vn ∨ nn ≤ k) :
    presentAt rels k c = true → presentAt (squash rels vn nn) k c = true := by
  intro h
  unfold presentAt at h
  rw [List.any_eq_true] at h
  obtain ⟨r, hr, hp⟩ := h
  obtain ⟨rc, ra, rr⟩ := r
  obtain ⟨hpc, hpcov⟩ := Bool.and_eq_true _ _ |>.mp hp
  have hrc : rc = c := by simpa using hpc
  have hcadd : ra ≤ k := ((coversAt_iff _ k).mp hpcov).1
  have hcrem : rr = none ∨ ∃ m, rr = some m ∧ k < m := ((coversAt_iff _ k).mp hpcov).2
  apply (squash_any_iff rels vn nn k c).mpr
  rcases hk with hklt | hkge
  · -- k < vn: the same record survives and still covers k
    have hra : ¬(ra = vn) := by omega
    refine ⟨⟨rc, ra, rr⟩, ?_, ?_, ?_⟩
    · rw [mem_squashRels1]
      refine ⟨hr, ?_⟩
      rintro ⟨ha, _⟩
      exact hra ha
    · show (ra == nn && (squashCrr rels vn nn).contains rc) = false
      have h1 : (ra == nn) = false := by
        rw [beq_eq_false_iff_ne]
        omega
      rw [h1, Bool.false_and]
    · rw [squashMap_eq, Bool.and_eq_true]
      have h5 : (ra == vn) = false := by
        rw [beq_eq_false_iff_ne]
        exact hra
      have h5n : ¬((ra == vn) = true) := by rw [h5]; exact Bool.false_ne_true
      refine ⟨by simp [hrc], (coversAt_iff _ k).mpr ⟨?_, ?_⟩⟩
      · show (if (ra == vn) = true then nn else ra) ≤ k
        rw [if_neg h5n]
        exact hcadd
      · rcases hcrem with hnone | ⟨m, hm, hmlt⟩
        · subst hnone
          left
          rfl
        · by_cases hmvn : m = vn
          · subst hm
            have hs6 : ((some m == some vn : Bool)) = true := by
              rw [hmvn]
              exact beq_self_eq_true _
            by_cases hcon : (squashCrr rels vn nn).contains rc = true
            · have hc3 : ((some m == some vn : Bool) &&
                  (squashCrr rels vn nn).contains rc) = true := by
                rw [hcon, Bool.and_true, hs6]
              left
              show (if ((some m == some vn : Bool) &&
                  (squashCrr rels vn nn).contains rc) = true then none
                else if (some m == some vn : Bool) = true then some nn
                else some m) = none
              rw [if_pos hc3]
            · have hc3 : ¬(((some m == some vn : Bool) &&
                  (squashCrr rels vn nn).contains rc) = true) := by
                rw [Bool.eq_false_iff.mpr hcon, Bool.and_false]
                exact Bool.false_ne_true
              right
              refine ⟨nn, ?_, by omega⟩
              show (if ((some m == some vn : Bool) &&
                  (squashCrr rels vn nn).contains rc) = true then none
                else if (some m == some vn : Bool) = true then some nn
                else some m) = some nn
              rw [if_neg hc3, if_pos hs6]
          · subst hm
            have hbeq : ((some m == some vn : Bool)) = false := by
              rw [beq_eq_false_iff_ne]
              intro hx
              injection hx with hx
              exact hmvn hx
            have hb1 : ¬(((some m == some vn : Bool) &&
                (squashCrr rels vn nn).contains rc) = true) := by
              rw [hbeq, Bool.false_and]
              exact Bool.false_ne_true
            have hb2 : ¬(((some m == some vn : Bool)) = true) := by
              rw [hbeq]
              exact Bool.false_ne_true
            right
            refine ⟨m, ?_, hmlt⟩
            show (if ((some m == some vn : Bool) &&
                (squashCrr rels vn nn).contains rc) = true then none
              else if (some m == some vn : Bool) = true then some nn
              else some m) = some m
            rw [if_neg hb1, if_neg hb2]
  · -- nn ≤ k
    have hrrvn : rr ≠ some vn := by
      intro hx
      rcases hcrem with hnone | ⟨m, hm, hmlt⟩
      · rw [hx] at hnone
        cases hnone
      · rw [hx] at hm
        injection hm with hm
        omega
    by_cases hdrop : ra = nn ∧ rc ∈ squashCrr rels vn nn
    · -- the record is deleted by step 4: the cleared removed-at-vn record
      -- of the same content covers k instead
      obtain ⟨hra_nn, hccrr⟩ := hdrop
      obtain ⟨⟨r1, hr1mem, hr1rm, hr1c⟩, _⟩ := squashCrr_elim rels vn nn rc hccrr
      obtain ⟨c1, a1, rr1⟩ := r1
      have hrr1 : rr1 = some vn := hr1rm
      subst hrr1
      have hc1 : c1 = rc := hr1c
      rw [hc1] at hr1mem
      have ha1 : a1 ≤ vn := hwf ⟨rc, a1, some vn⟩ hr1mem vn rfl
      have hcontains : (squashCrr rels vn nn).contains rc = true :=
        contains_iff _ _ |>.mpr hccrr
      have hc3 : ((some vn == some vn : Bool) &&
          (squashCrr rels vn nn).contains rc) = true := by
        rw [hcontains, Bool.and_true]
        exact beq_self_eq_true _
      refine ⟨⟨rc, a1, some vn⟩, ?_, ?_, ?_⟩
      · rw [mem_squashRels1]
        refine ⟨hr1mem, ?_⟩
        rintro ⟨_, hb⟩
        have hb2 : some vn = some nn := hb
        injection hb2 with hb2
        omega
      · show (a1 == nn && (squashCrr rels vn nn).contains rc) = false
        have h1 : (a1 == nn) = false := by
          rw [beq_eq_false_iff_ne]
          omega
        rw [h1, Bool.false_and]
      · rw [squashMap_eq, Bool.and_eq_true]
        refine ⟨by simp [hrc], (coversAt_iff _ k).mpr ⟨?_, ?_⟩⟩
        · show (if (a1 == vn) = true then nn else a1) ≤ k
          by_cases h5 : (a1 == vn) = true
          · rw [if_pos h5]
            omega
          · rw [if_neg h5]
            omega
        · left
          show (if ((some vn == some vn : Bool) &&
              (squashCrr rels vn nn).contains rc) = true then none
            else if (some vn == some vn : Bool) = true then some nn
            else some vn) = none
          rw [if_pos hc3]
    · -- the record survives step 4 and still covers k
      have hbeq : ((rr == some vn : Bool)) = false := by
        rw [beq_eq_false_iff_ne]
        exact hrrvn
      have hb1 : ¬(((rr == some vn : Bool) &&
          (squashCrr rels vn nn).contains rc) = true) := by
        rw [hbeq, Bool.false_and]
        exact Bool.false_ne_true
      have hb2 : ¬(((rr == some vn : Bool)) = true) := by
        rw [hbeq]
        exact Bool.false_ne_true
      refine ⟨⟨rc, ra, rr⟩, ?_, ?_, ?_⟩
      · rw [mem_squashRels1]
        refine ⟨hr, ?_⟩
        rintro ⟨_, hb⟩
        have hb3 : rr = some nn := hb
        rcases hcrem with hnone | ⟨m, hm, hmlt⟩
        · rw [hb3] at hnone
          cases hnone
        · rw [hb3] at hm
          injection hm with hm
          omega
      · show (ra == nn && (squashCrr rels vn nn).contains rc) = false
        by_cases h1 : (ra == nn) = true
        · have hra2 : ra = nn := by simpa using h1
          have h2 : (squashCrr rels vn nn).contains rc = false := by
            rw [Bool.eq_false_iff]
            intro hcontra
            exact hdrop ⟨hra2, contains_iff _ _ |>.mp hcontra⟩
          rw [h2, Bool.and_false]
        · rw [Bool.eq_false_iff.mpr h1, Bool.false_and]
      · rw [squashMap_eq, Bool.and_eq_true]
        refine ⟨by simp [hrc], (coversAt_iff _ k).mpr ⟨?_, ?_⟩⟩
        · show (if (ra == vn) = true then nn else ra) ≤ k
          by_cases h5 : (ra == vn) = true
          · rw [if_pos h5]
            omega
          · rw [if_neg h5]
            omega
        · show (if ((rr == some vn : Bool) &&
              (squashCrr rels vn nn).contains rc) = true then none
            else if (rr == some vn : Bool) = true then some nn else rr)
            = none ∨ ∃ m, (if ((rr == some vn : Bool) &&
              (squashCrr rels vn nn).contains rc) = true then none
            else if (rr == some vn : Bool) = true then some nn else rr)
            = some m ∧ k < m
          rw [if_neg hb1, if_neg hb2]
          exact hcrem

/-- Deleting the latest complete version (no successor) does not change
presence at any strictly earlier version. -/
theorem dropAddedClearRemoved_presentAt (rels : List RepositoryContent)
    (vn k c : Nat) (hk : k < vn) :
    presentAt (dropAddedClearRemoved rels vn) k c = presentAt rels k c := by
  unfold dropAddedClearRemoved presentAt
  rw [any_map2, List.any_filter, Bool.eq_iff_iff, List.any_eq_true, List.any_eq_true]
  constructor
  · rintro ⟨⟨rc, ra, rr⟩, hr, hcond⟩
    obtain ⟨h1, h2⟩ := Bool.and_eq_true _ _ |>.mp hcond
    refine ⟨⟨rc, ra, rr⟩, hr, ?_⟩
    by_cases h6 : ((rr == some vn : Bool)) = true
    · have hrr : rr = some vn := by simpa using h6
      have hclear : clearRemoved vn ⟨rc, ra, rr⟩ = ⟨rc, ra, none⟩ := by
        unfold clearRemoved
        rw [if_pos h6]
      rw [hclear] at h2
      obtain ⟨h2a, h2b⟩ := Bool.and_eq_true _ _ |>.mp h2
      have hra : ra ≤ k := ((coversAt_iff _ k).mp h2b).1
      exact Bool.and_eq_true _ _ |>.mpr
        ⟨h2a, (coversAt_iff _ k).mpr ⟨hra, Or.inr ⟨vn, hrr, hk⟩⟩⟩
    · have hclear : clearRemoved vn ⟨rc, ra, rr⟩ = ⟨rc, ra, rr⟩ := by
        unfold clearRemoved
        rw [if_neg h6]
      rw [hclear] at h2
      exact h2
  · rintro ⟨⟨rc, ra, rr⟩, hr, hcond⟩
    obtain ⟨h2a, h2b⟩ := Bool.and_eq_true _ _ |>.mp hcond
    have hra : ra ≤ k := ((coversAt_iff _ k).mp h2b).1
    refine ⟨⟨rc, ra, rr⟩, hr, Bool.and_eq_true _ _ |>.mpr ⟨?_, ?_⟩⟩
    · show (!(ra == vn : Bool)) = true
      have h0 : ((ra == vn : Bool)) = false := by
        rw [beq_eq_false_iff_ne]
        omega
      rw [h0]
      rfl
    · by_cases h6 : ((rr == some vn : Bool)) = true
      · have hclear : clearRemoved vn ⟨rc, ra, rr⟩ = ⟨rc, ra, none⟩ := by
          unfold clearRemoved
          rw [if_pos h6]
        rw [hclear]
        exact Bool.and_eq_true _ _ |>.mpr
          ⟨h2a, (coversAt_iff _ k).mpr ⟨hra, Or.inl rfl⟩⟩
      · have hclear : clearRemoved vn ⟨rc, ra, rr⟩ = ⟨rc, ra, rr⟩ := by
          unfold clearRemoved
          rw [if_neg h6]
        rw [hclear]
        exact hcond

theorem squashSafe_spec (rels : List RepositoryContent) (vn nn : Nat)
    (h : squashSafe rels vn nn = true) :
    ∀ r ∈ rels, r.version_removed = some vn → ∀ r2 ∈ rels,
      r2.version_added = nn → r2.content_id = r.content_id →
        r2.version_removed = none := by
  intro r hr hrm r2 hr2 hadd hc
  have h1 := (List.all_eq_true.mp h) r hr
  rw [Bool.or_eq_true] at h1
  rcases h1 with h1 | h1
  · rw [hrm] at h1
    simp at h1
  · have h2 := (List.all_eq_true.mp h1) r2 hr2
    rw [Bool.or_eq_true] at h2
    rcases h2 with h2 | h2
    · rw [hadd, hc] at h2
      simp at h2
    · simpa using h2

/-- C1 amended: deleting a complete version `V` leaves `content_at`
unchanged for every surviving complete version of the same repository,
provided the ledger is well-formed (no record removed before it was
added) and — in the squash case, the corner the original claim misses —
no content removed at `V` has its re-addition record at the next complete
version `N` carrying a later removal boundary of its own. When no next
complete version exists, `delete` erases `V`'s additions and clears its
removals, and presence at the surviving (strictly earlier) complete
versions is untouched. -/
theorem C1_amended_delete_preserves_content (s : RepoState) (V : VersionRow)
    (hV : V ∈ s.versions)
    (hVc : V.complete = true)
    (hnum : (s.versions.map (fun w => w.number)).Nodup)
    (hwf : removedNotBelowAdded s.relations = true)
    (hsafe : (match nextComplete s V.number with
      | some nn => squashSafe s.relations V.number nn
      | none => true) = true) :
    ∀ W ∈ (deleteVersion s V).versions, W.complete = true →
      ∀ c, presentAt (deleteVersion s V).relations W.number c
        = presentAt s.relations W.number c := by
  intro W hW hWc c
  have hnd : s.versions.Nodup := List.Nodup.of_map _ hnum
  have hverdel : (deleteVersion s V).versions = s.versions.erase V := by
    unfold deleteVersion
    rw [if_pos hVc]
    cases nextComplete s V.number <;> rfl
  rw [hverdel] at hW
  have hWV := (List.Nodup.mem_erase_iff hnd).mp hW
  have hWnum : W.number ≠ V.number := fun heq =>
    hWV.1 (List.inj_on_of_nodup_map hnum hWV.2 hV heq)
  have hwf2 := removedNotBelowAdded_spec s.relations hwf
  cases hnext : nextComplete s V.number with
  | some nn =>
      have hrel : (deleteVersion s V).relations
          = squash s.relations V.number nn := by
        unfold deleteVersion
        rw [if_pos hVc, hnext]
      rw [hrel]
      obtain ⟨hvnlt, _, hmin⟩ := nextComplete_spec_some s V.number nn hnext
      have hkspec : W.number < V.number ∨ nn ≤ W.number := by
        rcases Nat.lt_or_ge W.number V.number with h0 | h0
        · exact Or.inl h0
        · right
          have hgt : V.number < W.number := by omega
          exact hmin W hWV.2 hWc hgt
      have hsafe2 : squashSafe s.relations V.number nn = true := by
        rw [hnext] at hsafe
        exact hsafe
      rw [Bool.eq_iff_iff]
      constructor
      · exact squash_present_mp s.relations V.number nn W.number c hvnlt
          (squashSafe_spec s.relations V.number nn hsafe2) hkspec
      · exact squash_present_mpr s.relations V.number nn W.number c hvnlt
          hwf2 hkspec
  | none =>
      have hrel : (deleteVersion s V).relations
          = dropAddedClearRemoved s.relations V.number := by
        unfold deleteVersion
        rw [if_pos hVc, hnext]
      rw [hrel]
      have hle := nextComplete_spec_none s V.number hnext W hWV.2 hWc
      exact dropAddedClearRemoved_presentAt s.relations V.number W.number c
        (by omega)

theorem C1_amended_delete_preserves_content_witness :
    presentAt (deleteVersion
        { last_version := 2,
          versions := [{ number := 0, complete := true },
                       { number := 1, complete := true },
                       { number := 2, complete := true }],
          relations := [{ content_id := 5, version_added := 1, version_removed := none }] }
        { number := 1, complete := true }).relations 2 5
      = presentAt [{ content_id := 5, version_added := 1, version_removed := none }] 2 5 :=
  C1_amended_delete_preserves_content
    { last_version := 2,
      versions := [{ number := 0, complete := true },
                   { number := 1, complete := true },
                   { number := 2, complete := true }],
      relations := [{ content_id := 5, version_added := 1, version_removed := none }] }
    { number := 1, complete := true }
    (by decide) rfl (by decide) (by decide) (by decide)
    { number := 2, complete := true } (by decide) rfl 5

/-- The trace for the C1 counterexample: content 7 is added at version 1,
removed at version 2, re-added at version 3, removed again at version 4
(each step through the ordinary operations, all four versions complete). -/
def c1State : RepoState :=
  let p1 := newVersion initialRepo none
  let s1 := (exitScope (addContentCore p1.1 p1.2 [7]) p1.2 false baseHook).state
  let p2 := newVersion s1 none
  let s2 := (exitScope (removeContentCore p2.1 p2.2 [7]) p2.2 false baseHook).state
  let p3 := newVersion s2 none
  let s3 := (exitScope (addContentCore p3.1 p3.2 [7]) p3.2 false baseHook).state
  let p4 := newVersion s3 none
  (exitScope (removeContentCore p4.1 p4.2 [7]) p4.2 false baseHook).state

/-- C1 counterexample: before deleting version 2, content 7 is absent from
version 4; deleting complete version 2 (which squashes into version 3)
clears the removed-at-2 boundary and deletes the re-addition record with
its removed-at-4 boundary, so content 7 becomes present at the surviving
complete version 4 — `content_at(4)` is changed by the deletion. -/
theorem C1_counterexample :
    presentAt c1State.relations 4 7 = false ∧
    ({ number := 2, complete := true } : VersionRow) ∈ c1State.versions ∧
    ({ number := 4, complete := true } : VersionRow)
      ∈ (deleteVersion c1State { number := 2, complete := true }).versions ∧
    presentAt (deleteVersion c1State
      { number := 2, complete := true }).relations 4 7 = true := by
  decide

theorem C7_immutable_iff_witness :
    add_content initialRepo { number := 1, complete := false } [7]
        = .ok (addContentCore initialRepo { number := 1, complete := false } [7]) ∧
      remove_content initialRepo { number := 1, complete := false } [7]
        = .ok (removeContentCore initialRepo { number := 1, complete := false } [7]) :=
  (C7_immutable_iff initialRepo { number := 1, complete := false } [7]).2.2 rfl

theorem C10_latest_version_witness :
    latestVersion (newVersion initialRepo none).1
      = some { number := initialRepo.last_version + 1, complete := false } :=
  (C10_latest_version initialRepo).2.2 (by decide)

/-- The repository used for the C4 counterexample and witness: content 7
active as of complete version 1. -/
def c4S : RepoState :=
  { last_version := 1,
    versions := [{ number := 0, complete := true },
                 { number := 1, complete := true }],
    relations := [{ content_id := 7, version_added := 1, version_removed := none }] }

/-- C4 counterexample: beginning a new version whose base content `{7}`
equals the repository's current content and then finalizing does not
yield a version at all: the scope discards it by no-op elision, rolling
the repository back to its previous state — no version row numbered 2
persists, so no version with `content_at` equal to the base's exists. -/
theorem C4_counterexample :
    exitScope (newVersion c4S (some [7])).1 (newVersion c4S (some [7])).2
        false baseHook = .discarded c4S ∧
      ((exitScope (newVersion c4S (some [7])).1 (newVersion c4S (some [7])).2
          false baseHook).state.versions.all (fun w => w.number != 2)) = true := by
  decide

theorem C4_amended_base_clone_witness :
    presentAt (newVersion c4S (some [8])).1.relations (c4S.last_version + 1) 8
        = [8].contains 8 ∧
      exitScope (newVersion c4S (some [8])).1 (newVersion c4S (some [8])).2
          false baseHook
        = .completed (markComplete (newVersion c4S (some [8])).1
            (newVersion c4S (some [8])).2) := by
  have h := C4_amended_base_clone c4S [8] (by decide)
  exact ⟨h.1 8, (h.2 (fun hall => absurd (hall 7) (by decide))).1⟩

end Pulpcore
